import Mathlib

/-!
# Verification of the rustproof spell-checking core

A shallow embedding, in Lean 4, of the core of the `rustproof` code
spell-checker: the lexer (`src/lexer.rs`), the two word-expander variants
present in the sources (`src/expander.rs` and `src/expander/`), the
keyword tables (`src/keywords.rs`), the diagnostic pipeline
(`Backend::misspelled_tokens` in `src/main.rs`), the dispatch bridge around
the Hunspell worker threads (`src/main.rs`), and the local accepted-word
dictionary (`src/local_dictionary.rs`).

Modelling conventions:
* Rust `String` / `&str` text is modelled as `List Char` where the proofs
  walk characters (lexer, expanders) and as Lean `String` where words are
  treated atomically (dictionaries, bridge).
* Rust `String::len` counts UTF-8 bytes; it is modelled by `byteLen`
  (summing `Char.utf8Size`).  `char::len_utf16` is modelled by
  `charUtf16Len`.
* `char::is_uppercase` / `is_lowercase` are full-Unicode in Rust; they are
  modelled exactly on the character repertoire this program lexes (ASCII
  letters plus the fixed accented-letter allow-list of
  `Lexer::is_accepted_char`, and the apostrophe); on that repertoire the
  model agrees with Rust.
* Panics are modelled as `none` in an `Option` result.
-/

namespace Rustproof

/-- UTF-16 code units occupied by a character: 1 in the Basic Multilingual
Plane, 2 above (surrogate pair).  Models Rust's `char::len_utf16` as used
in `Lexer::next` (`src/lexer.rs:188`). -/
def charUtf16Len (c : Char) : Nat :=
  if c.toNat < 0x10000 then 1 else 2

/-- UTF-16 length of a character list. -/
def utf16Len (l : List Char) : Nat :=
  (l.map charUtf16Len).sum

/-- UTF-8 byte length of a character list; models Rust's `String::len`
(`lexeme.len()` in both expander variants and the pipeline filters). -/
def byteLen (l : List Char) : Nat :=
  (l.map Char.utf8Size).sum

/-- Model of Rust `char::is_uppercase`, exact on the repertoire the lexer
admits: ASCII `A..Z` plus the uppercase members `Å Ä Ö` of the accented
allow-list of `Lexer::is_accepted_char`. -/
def isUppercase (c : Char) : Bool :=
  ('A' ≤ c && c ≤ 'Z') || c = 'Å' || c = 'Ä' || c = 'Ö'

/-- Model of Rust `char::is_lowercase`, exact on the repertoire the lexer
admits: ASCII `a..z` plus the lowercase members of the accented
allow-list of `Lexer::is_accepted_char`. -/
def isLowercase (c : Char) : Bool :=
  ('a' ≤ c && c ≤ 'z') ||
    c ∈ ['å', 'ä', 'ö', 'ø', 'í', 'ü', 'ą', 'ô', 'č', 'ę', 'ė', 'į', 'š', 'ų', 'ž']

/-- `Pos` (`src/lexer.rs:4`): a line/column position; the column is counted
in UTF-16 code units from the start of the line. -/
structure Pos where
  line : Nat
  col : Nat
deriving DecidableEq, Repr

/-- `Pos::start` (`src/lexer.rs:10`). -/
def Pos.posStart : Pos := ⟨0, 0⟩

/-- `Pos::set_col` (`src/lexer.rs:14`): replace the column, keep the line. -/
def Pos.set_col (p : Pos) (c : Nat) : Pos :=
  ⟨p.line, c⟩

/-- Modelled from the spec: `Pos::increment_col` is called by
`expander/pascal.rs` but is not defined in the sources present (that file
belongs to an older revision whose `lexer.rs` is missing).  Per its name
and its use to recompute sub-token positions ("the next sub-token's start
equals the previous sub-token's end", spec section 4.3) it advances the
column by the given amount. -/
def Pos.increment_col (p : Pos) (n : Nat) : Pos :=
  ⟨p.line, p.col + n⟩

/-- `Token` (`src/lexer.rs:72`): a lexeme with its exclusive span.  The
source field `end` is a Lean keyword and is rendered `endPos`. -/
structure Token where
  start : Pos
  endPos : Pos
  lexeme : List Char
deriving DecidableEq, Repr

/-- `Lexer::is_accepted_char` (`src/lexer.rs:108`): ASCII letters plus a
fixed allow-list of accented letters. -/
def is_accepted_char (c : Char) : Bool :=
  ('a' ≤ c && c ≤ 'z') || ('A' ≤ c && c ≤ 'Z') ||
    c ∈ ['å', 'Å', 'ä', 'Ä', 'ö', 'Ö', 'ø', 'í', 'ü', 'ą', 'ô', 'č', 'ę', 'ė', 'į', 'š', 'ų', 'ž']

/-- Remaining lexer state after some characters have been consumed:
the unread text and the cursor, as in `struct Lexer` (`src/lexer.rs:57`). -/
structure LexerState where
  text : List Char
  col : Nat
  line : Nat
  offset : Nat
deriving DecidableEq, Repr

/-- Cursor advance of `Lexer::next` (`src/lexer.rs:178`): a newline resets
the column to 0 and increments the line; any other character advances the
column by its width in UTF-16 code units. -/
def lexAdvance (c : Char) (col line : Nat) : Nat × Nat :=
  if c = '\n' then (0, line + 1) else (col + charUtf16Len c, line)

/-- The accumulation loop of `Lexer::next_token` (`src/lexer.rs:140`),
entered with a non-empty `lexeme` already accumulated.  At the top of each
iteration the candidate exclusive end is the current position; then one
character is consumed: an accepted letter is appended (together with a
pending tentatively-held apostrophe, if any); an apostrophe after a
non-empty lexeme is held tentatively; anything else (or an apostrophe on an
empty lexeme) breaks the loop.  Returns the accumulated lexeme, the
candidate end recorded at the final loop top, and the state after the loop
(the breaking character, if any, already consumed). -/
def lexRun : List Char → Nat → Nat → Nat → List Char → Option Char →
    List Char × Pos × LexerState
  | [], col, line, offset, lexeme, _ =>
      (lexeme, ⟨line, col⟩, ⟨[], col, line, offset⟩)
  | c :: rest, col, line, offset, lexeme, maybeQuote =>
      let e : Pos := ⟨line, col⟩
      let a := lexAdvance c col line
      if is_accepted_char c then
        lexRun rest a.1 a.2 (offset + 1)
          ((match maybeQuote with
            | some q => lexeme ++ [q]
            | none => lexeme) ++ [c]) none
      else if c = '\'' then
        if lexeme.isEmpty then (lexeme, e, ⟨rest, a.1, a.2, offset + 1⟩)
        else lexRun rest a.1 a.2 (offset + 1) lexeme (some c)
      else (lexeme, e, ⟨rest, a.1, a.2, offset + 1⟩)

/-- `Lexer::next_token` (`src/lexer.rs:134`).  The source records the start
position, runs the accumulation loop, and recursively restarts itself when
the loop broke with an empty lexeme.  The first loop iteration is unrolled
here so that the recursion (which consumes exactly the one rejected
character before restarting) is structural: a character that would break
the loop while the lexeme is still empty — a non-letter, or an apostrophe
with no letter before it — is skipped and the tokenizer restarts, exactly
as the source's `if lexeme.is_empty() { return self.next_token(); }`. -/
def nextToken : List Char → Nat → Nat → Nat → Option (Token × LexerState)
  | [], _, _, _ => none
  | c :: rest, col, line, offset =>
      let start : Pos := ⟨line, col⟩
      let a := lexAdvance c col line
      if is_accepted_char c then
        let r := lexRun rest a.1 a.2 (offset + 1) [c] none
        some (⟨start, r.2.1, r.1⟩, r.2.2)
      else nextToken rest a.1 a.2 (offset + 1)

/-- Driver of the token stream (the `Iterator` instance of `Lexer`,
`src/lexer.rs:64`), with explicit fuel.  Each emitted token consumes at
least one character, so `text.length` fuel (supplied by `lexTokens`) is
always sufficient. -/
def lexTokensAux : Nat → List Char → Nat → Nat → Nat → List Token
  | 0, _, _, _, _ => []
  | fuel + 1, text, col, line, offset =>
      match nextToken text col line offset with
      | none => []
      | some (t, s) => t :: lexTokensAux fuel s.text s.col s.line s.offset

/-- All tokens the lexer emits for an input, from `Lexer::new`
(`src/lexer.rs:92`): cursor at line 0, column 0. -/
def lexTokens (text : List Char) : List Token :=
  lexTokensAux text.length text 0 0 0

/-- The cursor `(col, line)` after consuming a list of characters, folding
the advance of `Lexer::next` over it; used to state where a token's
positions lie relative to the input text. -/
def cursorAdvance : List Char → Nat × Nat → Nat × Nat
  | [], p => p
  | c :: rest, p => cursorAdvance rest (lexAdvance c p.1 p.2)

/-! ## Word expander, peekable-iterator variant (`src/expander.rs`)

`Expander` walks the lexeme through a `BufferedPeekable` (capacity 2,
`src/peekable_n.rs`); over a pure character list `next` is the head,
`peek` the next unconsumed character and `peek_at(1)` the one after. -/

/-- `Expander::parse_pascal` / `parse_lower` share this loop
(`src/expander.rs:38` and `src/expander.rs:70`): starting from the already
consumed first character, keep consuming while the peeked character is
lowercase.  Returns the word and the unconsumed remainder. -/
def parseLowerRun (first : Char) (l : List Char) : List Char × List Char :=
  (first :: l.takeWhile isLowercase, l.dropWhile isLowercase)

/-- The loop of `Expander::parse_upper` (`src/expander.rs:52`): consume the
peeked character while it exists and either it is the last character or
both it and its successor are uppercase. -/
def parseUpperRun : List Char → List Char × List Char
  | [] => ([], [])
  | [a] => ([a], [])
  | a :: b :: rest =>
      if isUppercase a && isUppercase b then
        let r := parseUpperRun (b :: rest)
        (a :: r.1, r.2)
      else ([], a :: b :: rest)

/-- `Expander::next_word` (`src/expander.rs:26`): consume one character,
peek the next; dispatch on their cases.  Yields `none` (ending the
iterator) at the end of input, when only one character remains, and in the
unhandled `(lowercase, uppercase)` case. -/
def nextWord : List Char → Option (List Char × List Char)
  | [] => none
  | [_] => none
  | c1 :: c2 :: rest =>
      match isUppercase c1, isUppercase c2 with
      | true, false =>
          let r := parseLowerRun c1 (c2 :: rest)
          some r
      | true, true =>
          let r := parseUpperRun (c2 :: rest)
          some (c1 :: r.1, r.2)
      | false, false =>
          let r := parseLowerRun c1 (c2 :: rest)
          some r
      | false, true => none

/-- The word stream of the `Iterator` instance of `Expander`
(`src/expander.rs:11`), with fuel; each word consumes at least one
character, so `l.length` fuel (supplied by `expandWords`) suffices. -/
def expandWordsAux : Nat → List Char → List (List Char)
  | 0, _ => []
  | fuel + 1, l =>
      match nextWord l with
      | none => []
      | some (w, rest) => w :: expandWordsAux fuel rest

/-- All words `Expander::new(lexeme.chars())` yields (`src/expander.rs:86`). -/
def expandWords (l : List Char) : List (List Char) :=
  expandWordsAux l.length l

/-- Rebuilds sub-tokens from sub-lexemes as `<Token as Expandable>::expand`
(`src/expander.rs:84`) does: a running counter starts at the token's start
column; each sub-token starts at the counter and ends at the counter plus
its lexeme's **UTF-8 byte** length (`lexeme.len()`), the counter advancing
by that length; lines are kept from the original start and end. -/
def buildTokens (startPos endPosition : Pos) : Nat → List (List Char) → List Token
  | _, [] => []
  | ctr, lex :: rest =>
      ⟨startPos.set_col ctr, endPosition.set_col (ctr + byteLen lex), lex⟩ ::
        buildTokens startPos endPosition (ctr + byteLen lex) rest

/-- `<Token as Expandable>::expand` of `src/expander.rs:83`: split the
lexeme with the `Expander` iterator and recompute positions. -/
def Token.expand (t : Token) : List Token :=
  buildTokens t.start t.endPos t.start.col (expandWords t.lexeme)

/-! ## Word expander, recognizer variant (`src/expander/`) -/

/-- `split_on_uppercase` (`src/expander/mod.rs:24`), accumulator form of
its `for` loop: an uppercase character closes the (non-empty) current word
and starts a new one; every character is appended to the open word; a
non-empty final word is pushed. -/
def splitAux : List Char → List Char → List (List Char)
  | [], current => if current.isEmpty then [] else [current]
  | c :: rest, current =>
      if isUppercase c && !current.isEmpty then
        current :: splitAux rest [c]
      else splitAux rest (current ++ [c])

/-- `split_on_uppercase` (`src/expander/mod.rs:24`). -/
def split_on_uppercase (s : List Char) : List (List Char) :=
  splitAux s []

/-- `expand_uppercase` (`src/expander/mod.rs:43`): positions recomputed
with a counter starting at the token's start column, `Pos::set_col`, and
**UTF-8 byte** lengths (`lexeme.len()`). -/
def expand_uppercase (t : Token) : List Token :=
  buildTokens t.start t.endPos t.start.col (split_on_uppercase t.lexeme)

/-- `expand_camel` (`src/expander/camel.rs:4`). -/
def expand_camel (t : Token) : List Token :=
  expand_uppercase t

/-- `is_camel` (`src/expander/camel.rs:8`): first character not uppercase,
and some later character uppercase. -/
def is_camel : List Char → Bool
  | [] => false
  | first :: rest =>
      if isUppercase first then false else rest.any isUppercase

/-- `expand_pascal` (`src/expander/pascal.rs:5`): like `expand_uppercase`
but the counter starts at 0 and positions are recomputed with
`Pos::increment_col` — so each sub-token's end is offset from the
original token's **end** position.  (The source's `TokenKind` field
belongs to the older token type and has no counterpart here.)
`buildTokensInc` is its `map`-with-counter loop. -/
def buildTokensInc (startPos endPosition : Pos) : Nat → List (List Char) → List Token
  | _, [] => []
  | ctr, lex :: rest =>
      ⟨startPos.increment_col ctr, endPosition.increment_col (ctr + byteLen lex), lex⟩ ::
        buildTokensInc startPos endPosition (ctr + byteLen lex) rest

/-- `expand_pascal` (`src/expander/pascal.rs:5`), assembled from
`buildTokensInc` with the counter starting at 0. -/
def expand_pascal (t : Token) : List Token :=
  buildTokensInc t.start t.endPos 0 (split_on_uppercase t.lexeme)

/-- `is_pascal` (`src/expander/pascal.rs:24`).  The source runs two `any`
calls over one shared iterator: the first consumes up to and including the
first uppercase character of the remainder, the second then scans only
what is left for a lowercase character. -/
def is_pascal : List Char → Bool
  | [] => false
  | first :: rest =>
      if isLowercase first then false
      else
        match rest.dropWhile (fun c => !isUppercase c) with
        | [] => false
        | _ :: after => after.any isLowercase

/-- `<Token as Expandable>::expand` of `src/expander/mod.rs:12`, the
variant the pipeline call sites use (`if let Some(t) = t.expand()`):
camel-case tokens are split on uppercase boundaries, Pascal-case tokens
via `expand_pascal`, anything else is `None` (left unsplit by the caller). -/
def expandOpt (t : Token) : Option (List Token) :=
  if is_camel t.lexeme then some (expand_camel t)
  else if is_pascal t.lexeme then some (expand_pascal t)
  else none

/-! ## Keyword filter (`src/keywords.rs`) -/

/-- The `RUST` reserved-word set (`src/keywords.rs:4`), as listed. -/
def rustKeywords : List String :=
  ["as", "use", "extern crate", "break", "const", "continue", "crate",
   "else", "if", "if let", "enum", "extern", "false", "fn", "for", "if",
   "impl", "in", "for", "let", "loop", "match", "mod", "move", "mut",
   "pub", "impl", "ref", "return", "Self", "self", "static", "struct",
   "super", "trait", "true", "type", "unsafe", "use", "where", "while",
   "abstract", "alignof", "become", "box", "do", "final", "macro",
   "offsetof", "override", "priv", "proc", "pure", "sizeof", "typeof",
   "unsized", "virtual", "yield"]

/-- The `JS` reserved-word set (`src/keywords.rs:70`). -/
def jsKeywords : List String :=
  ["await", "break", "case", "catch", "class", "const", "continue",
   "debugger", "default", "delete", "do", "else", "enum", "export",
   "extends", "false", "finally", "for", "function", "if", "implements",
   "import", "in", "instanceof", "interface", "let", "new", "null",
   "package", "private", "protected", "public", "return", "super",
   "switch", "static", "this", "throw", "try", "True", "typeof", "var",
   "void", "while", "with", "yield"]

/-- The `RUBY` reserved-word set (`src/keywords.rs:123`). -/
def rubyKeywords : List String :=
  ["BEGIN", "END", "alias", "and", "begin", "break", "case", "class",
   "def", "module", "next", "nil", "not", "or", "redo", "rescue", "retry",
   "return", "elsif", "end", "false", "ensure", "for", "if", "true",
   "undef", "unless", "do", "else", "super", "then", "until", "when",
   "while", "defined?", "self"]

/-- `keywords::from_lang` (`src/keywords.rs:135`): exact, case-sensitive
dispatch on the language identifier; unknown identifiers map to the empty
set. -/
def from_lang (lang : String) : List String :=
  if lang = "rust" then rustKeywords
  else if lang = "javascript" then jsKeywords
  else if lang = "ruby" then rubyKeywords
  else []

/-! ## Diagnostic pipeline (`Backend::misspelled_tokens`, `src/main.rs:40`)

The spell-check verdict (`self.spell_check`) and the local-dictionary
lookup (`self.local_dict.contains`) are the two external stages of the
chain; they enter as function parameters `known` and `accepted`. -/

/-- `Backend::misspelled_tokens` (`src/main.rs:40`): lex; keep lexemes of
more than 3 bytes; expand (camel/Pascal, the unsplit token otherwise);
re-apply the same length filter; keep words the spell checker does not
know; keep words not in the local dictionary. -/
def misspelledTokens (code : List Char) (known accepted : List Char → Bool) :
    List Token :=
  (((((lexTokens code).filter (fun t => 3 < byteLen t.lexeme)).flatMap
      (fun t => (expandOpt t).getD [t])).filter
        (fun t => 3 < byteLen t.lexeme)).filter
          (fun t => !known t.lexeme)).filter
            (fun t => !accepted t.lexeme)

/-- `Pipeline::run` (`src/pipeline.rs:18`), the variant in `src/pipeline.rs`
(not referenced from `main.rs`): lex; keep lexemes of more than 1 byte;
drop lexemes in the language's keyword set (pre-expansion); expand.  No
post-expansion filtering happens here. -/
def pipelineRun (lang : String) (code : List Char) : List Token :=
  (((lexTokens code).filter (fun t => 1 < byteLen t.lexeme)).filter
      (fun t => !(from_lang lang).contains (String.mk t.lexeme))).flatMap
        (fun t => (expandOpt t).getD [t])

/-- The staged pipeline exactly as the claim states it (spec section 4.6):
lex → length filter → keyword filter on the pre-expansion lexeme → expand
→ the same length filter again → drop bridge-known words → drop accepted
words.  Written from the spec's words, to be compared with
`misspelledTokens`. -/
def claimedPipeline (code : List Char) (lang : String)
    (known accepted : List Char → Bool) : List Token :=
  ((((((lexTokens code).filter (fun t => 3 < byteLen t.lexeme)).filter
      (fun t => !(from_lang lang).contains (String.mk t.lexeme))).flatMap
        (fun t => (expandOpt t).getD [t])).filter
          (fun t => 3 < byteLen t.lexeme)).filter
            (fun t => !known t.lexeme)).filter
              (fun t => !accepted t.lexeme)

/-- The staged pipeline the code actually implements, stated stage by
stage for comparison: identical to the claimed stages except that no
keyword filtering occurs anywhere. -/
def amendedPipeline (code : List Char) (known accepted : List Char → Bool) :
    List Token :=
  (((((lexTokens code).filter (fun t => 3 < byteLen t.lexeme)).flatMap
      (fun t => (expandOpt t).getD [t])).filter
        (fun t => 3 < byteLen t.lexeme)).filter
          (fun t => !known t.lexeme)).filter
            (fun t => !accepted t.lexeme)

/-! ## Dispatch bridge (`src/main.rs`) -/

/-- A configured Hunspell dictionary as the worker threads see it
(`src/main.rs:205`): a membership check (`check(word) == FoundInDictionary`)
and a suggestion list per word. -/
structure Dict where
  check : String → Bool
  suggest : String → List String

/-- The body of the checker worker loop (`src/main.rs:236`): a word is
known iff **any** configured dictionary recognizes it. -/
def checkWorker (dicts : List Dict) (word : String) : Bool :=
  dicts.any (fun d => d.check word)

/-- The body of the suggester worker loop (`src/main.rs:211`): concatenate
every dictionary's suggestions in configured order, keep strings of more
than 2 **UTF-8 bytes** (`s.len() > 2`), deduplicate (the source collects
into a `HashSet`, whose iteration order is unspecified; the model keeps
first occurrences), and take at most 6. -/
def suggestWorker (dicts : List Dict) (word : String) : List String :=
  (((dicts.flatMap (fun d => d.suggest word)).filter
      (fun s => 2 < s.utf8ByteSize)).dedup).take 6

/-- The observable state of one worker channel stored in the backend's
`RwLock<Option<Sender<..>>>` fields (`src/main.rs:35`): still `None`
(`start_spellchecker` not yet run), a sender whose worker thread has
terminated (the `send` fails, the reply channel is dropped), or a live
worker that replies to every request. -/
inductive WorkerChannel (α : Type) where
  | uninitialized : WorkerChannel α
  | terminated : WorkerChannel α
  | alive (reply : String → α) : WorkerChannel α

/-- `Backend::spell_check` (`src/main.rs:245`).  `none` models the panic of
`checker.as_ref().unwrap()` on an uninitialized bridge; with a terminated
worker the failed `send` is discarded and `tx.recv().unwrap_or(true)`
yields `true`; a live worker's reply is returned. -/
def spell_check (checker : WorkerChannel Bool) (word : String) : Option Bool :=
  match checker with
  | .uninitialized => none
  | .terminated => some true
  | .alive reply => some (reply word)

/-- `Backend::suggest` (`src/main.rs:252`).  `none` models the panic of
`suggester.as_ref().unwrap()` on an uninitialized bridge; with a
terminated worker `tx.recv().unwrap_or(vec![])` yields the empty list. -/
def suggest (suggester : WorkerChannel (List String)) (word : String) :
    Option (List String) :=
  match suggester with
  | .uninitialized => none
  | .terminated => some []
  | .alive reply => some (reply word)

/-! ## Local dictionary (`src/local_dictionary.rs`) -/

/-- Model of Rust `str::to_lowercase` character by character, exact on the
repertoire this program handles (ASCII plus the lexer's accented
allow-list, whose only uppercase members are `Å Ä Ö`). -/
def charLower (c : Char) : Char :=
  if 'A' ≤ c && c ≤ 'Z' then Char.ofNat (c.toNat + 32)
  else if c = 'Å' then 'å'
  else if c = 'Ä' then 'ä'
  else if c = 'Ö' then 'ö'
  else c

/-- Model of Rust `str::to_lowercase` (`v.to_lowercase()` in
`src/local_dictionary.rs`). -/
def toLowercase (s : String) : String :=
  String.mk (s.data.map charLower)

/-- The contents of the `LocalDictionary`'s `DashSet<String>`
(`src/local_dictionary.rs:3`), modelled by the list of inserted strings
(membership is all the source ever queries). -/
def LocalDictionary := List String

/-- `LocalDictionary::contains` (`src/local_dictionary.rs:11`): membership
of the lowercased query. -/
def LocalDictionary.contains (d : LocalDictionary) (v : String) : Bool :=
  List.contains d (toLowercase v)

/-- `LocalDictionary::insert` (`src/local_dictionary.rs:15`): inserts the
lowercased word. -/
def LocalDictionary.insert (d : LocalDictionary) (v : String) : LocalDictionary :=
  toLowercase v :: d

/-- One tentatively-held apostrophe contributes one unaccounted column
unit in the loop invariants below. -/
def mqSlack : Option Char → Nat
  | none => 0
  | some _ => 1

/-- A concrete dictionary for the C9 witness. -/
def witnessDict : Dict :=
  ⟨fun w => w == "hello", fun _ => ["apple", "app", "apple"]⟩

/-! ## Character-class arithmetic -/

theorem char_le_iff {a b : Char} : a ≤ b ↔ a.toNat ≤ b.toNat :=
  Char.le_def.trans UInt32.le_def

theorem char_eq_iff {a b : Char} : a = b ↔ a.toNat = b.toNat :=
  Char.ext_iff.trans UInt32.ext_iff

theorem isUppercase_iff {c : Char} :
    isUppercase c = true ↔
      (65 ≤ c.toNat ∧ c.toNat ≤ 90) ∨ c.toNat = 197 ∨ c.toNat = 196 ∨ c.toNat = 214 := by
  have e1 : ('A' : Char).toNat = 65 := rfl
  have e2 : ('Z' : Char).toNat = 90 := rfl
  have e3 : ('Å' : Char).toNat = 197 := rfl
  have e4 : ('Ä' : Char).toNat = 196 := rfl
  have e5 : ('Ö' : Char).toNat = 214 := rfl
  simp only [isUppercase, Bool.or_eq_true, Bool.and_eq_true, decide_eq_true_eq,
    char_le_iff, char_eq_iff, e1, e2, e3, e4, e5]
  omega

theorem isLowercase_iff {c : Char} :
    isLowercase c = true ↔
      (97 ≤ c.toNat ∧ c.toNat ≤ 122) ∨
        c.toNat ∈ [229, 228, 246, 248, 237, 252, 261, 244, 269, 281, 279, 303, 353, 371, 382] := by
  have e1 : ('a' : Char).toNat = 97 := rfl
  have e2 : ('z' : Char).toNat = 122 := rfl
  have f1 : ('å' : Char).toNat = 229 := rfl
  have f2 : ('ä' : Char).toNat = 228 := rfl
  have f3 : ('ö' : Char).toNat = 246 := rfl
  have f4 : ('ø' : Char).toNat = 248 := rfl
  have f5 : ('í' : Char).toNat = 237 := rfl
  have f6 : ('ü' : Char).toNat = 252 := rfl
  have f7 : ('ą' : Char).toNat = 261 := rfl
  have f8 : ('ô' : Char).toNat = 244 := rfl
  have f9 : ('č' : Char).toNat = 269 := rfl
  have f10 : ('ę' : Char).toNat = 281 := rfl
  have f11 : ('ė' : Char).toNat = 279 := rfl
  have f12 : ('į' : Char).toNat = 303 := rfl
  have f13 : ('š' : Char).toNat = 353 := rfl
  have f14 : ('ų' : Char).toNat = 371 := rfl
  have f15 : ('ž' : Char).toNat = 382 := rfl
  simp only [isLowercase, List.mem_cons, List.not_mem_nil, or_false, Bool.or_eq_true,
    Bool.and_eq_true, decide_eq_true_eq, char_le_iff, char_eq_iff, e1, e2, f1, f2,
    f3, f4, f5, f6, f7, f8, f9, f10, f11, f12, f13, f14, f15]

theorem is_accepted_char_iff {c : Char} :
    is_accepted_char c = true ↔
      (97 ≤ c.toNat ∧ c.toNat ≤ 122) ∨ (65 ≤ c.toNat ∧ c.toNat ≤ 90) ∨
        c.toNat ∈ [229, 197, 228, 196, 246, 214, 248, 237, 252, 261, 244, 269,
          281, 279, 303, 353, 371, 382] := by
  have e1 : ('a' : Char).toNat = 97 := rfl
  have e2 : ('z' : Char).toNat = 122 := rfl
  have e3 : ('A' : Char).toNat = 65 := rfl
  have e4 : ('Z' : Char).toNat = 90 := rfl
  have f1 : ('å' : Char).toNat = 229 := rfl
  have f2 : ('Å' : Char).toNat = 197 := rfl
  have f3 : ('ä' : Char).toNat = 228 := rfl
  have f4 : ('Ä' : Char).toNat = 196 := rfl
  have f5 : ('ö' : Char).toNat = 246 := rfl
  have f6 : ('Ö' : Char).toNat = 214 := rfl
  have f7 : ('ø' : Char).toNat = 248 := rfl
  have f8 : ('í' : Char).toNat = 237 := rfl
  have f9 : ('ü' : Char).toNat = 252 := rfl
  have f10 : ('ą' : Char).toNat = 261 := rfl
  have f11 : ('ô' : Char).toNat = 244 := rfl
  have f12 : ('č' : Char).toNat = 269 := rfl
  have f13 : ('ę' : Char).toNat = 281 := rfl
  have f14 : ('ė' : Char).toNat = 279 := rfl
  have f15 : ('į' : Char).toNat = 303 := rfl
  have f16 : ('š' : Char).toNat = 353 := rfl
  have f17 : ('ų' : Char).toNat = 371 := rfl
  have f18 : ('ž' : Char).toNat = 382 := rfl
  simp only [is_accepted_char, List.mem_cons, List.not_mem_nil, or_false, Bool.or_eq_true,
    Bool.and_eq_true, decide_eq_true_eq, char_le_iff, char_eq_iff, e1, e2, e3, e4,
    f1, f2, f3, f4, f5, f6, f7, f8, f9, f10, f11, f12, f13, f14, f15, f16, f17, f18]
  omega

/-- In the modelled repertoire (as in Unicode), no character is both
uppercase and lowercase. -/
theorem isUppercase_false_of_isLowercase {c : Char} (h : isLowercase c = true) :
    isUppercase c = false := by
  cases hu : isUppercase c
  · rfl
  · have h1 := isLowercase_iff.mp h
    have h2 := isUppercase_iff.mp hu
    simp only [List.mem_cons, List.not_mem_nil, or_false] at h1
    omega

theorem isLowercase_false_of_isUppercase {c : Char} (h : isUppercase c = true) :
    isLowercase c = false := by
  cases hl : isLowercase c
  · rfl
  · have h1 := isLowercase_iff.mp hl
    have h2 := isUppercase_iff.mp h
    simp only [List.mem_cons, List.not_mem_nil, or_false] at h1
    omega

/-- Every character the lexer accepts lies in the Basic Multilingual Plane,
so it occupies one UTF-16 code unit. -/
theorem charUtf16Len_accepted {c : Char} (h : is_accepted_char c = true) :
    charUtf16Len c = 1 := by
  have h1 := is_accepted_char_iff.mp h
  simp only [List.mem_cons, List.not_mem_nil, or_false] at h1
  unfold charUtf16Len
  have : c.toNat < 0x10000 := by omega
  simp [this]

theorem accepted_ne_newline {c : Char} (h : is_accepted_char c = true) : c ≠ '\n' := by
  intro he
  subst he
  exact absurd h (by decide)

theorem accepted_ne_quote {c : Char} (h : is_accepted_char c = true) : c ≠ '\'' := by
  intro he
  subst he
  exact absurd h (by decide)

theorem charUtf16Len_quote : charUtf16Len '\'' = 1 := by decide

/-! ## Lowercasing arithmetic -/

theorem toNat_ofNat_shift {c : Char} (h1 : 65 ≤ c.toNat) (h2 : c.toNat ≤ 90) :
    (Char.ofNat (c.toNat + 32)).toNat = c.toNat + 32 := by
  have hv : (c.toNat + 32).isValidChar := Or.inl (by omega)
  simp only [Char.ofNat, hv, dif_pos]
  simp [Char.ofNatAux, Char.toNat, UInt32.toNat, Nat.toUInt32, UInt32.ofNat,
    Fin.ofNat, Nat.mod_eq_of_lt (by omega : c.toNat + 32 < 4294967296)]

theorem charLower_fixes_nonupper {c : Char} (h : isUppercase c = false) :
    charLower c = c := by
  simp only [isUppercase, Bool.or_eq_false_iff, decide_eq_false_iff_not] at h
  simp [charLower, h.1.1.1, h.1.1.2, h.1.2, h.2]

theorem isUppercase_charLower (c : Char) : isUppercase (charLower c) = false := by
  cases hu : isUppercase c
  · rw [charLower_fixes_nonupper hu]
    exact hu
  · rcases isUppercase_iff.mp hu with ⟨h1, h2⟩ | h | h | h
    · have hb : ('A' ≤ c && c ≤ 'Z') = true := by
        have e1 : ('A' : Char).toNat = 65 := rfl
        have e2 : ('Z' : Char).toNat = 90 := rfl
        simp only [Bool.and_eq_true, decide_eq_true_eq, char_le_iff, e1, e2]
        omega
      have hr : charLower c = Char.ofNat (c.toNat + 32) := by
        simp [charLower, hb]
      rw [hr]
      cases hx : isUppercase (Char.ofNat (c.toNat + 32))
      · rfl
      · have := isUppercase_iff.mp hx
        rw [toNat_ofNat_shift h1 h2] at this
        omega
    · have : c = 'Å' := char_eq_iff.mpr (by rw [h]; rfl)
      subst this; decide
    · have : c = 'Ä' := char_eq_iff.mpr (by rw [h]; rfl)
      subst this; decide
    · have : c = 'Ö' := char_eq_iff.mpr (by rw [h]; rfl)
      subst this; decide

theorem charLower_idem (c : Char) : charLower (charLower c) = charLower c :=
  charLower_fixes_nonupper (isUppercase_charLower c)

theorem toLowercase_idem (s : String) : toLowercase (toLowercase s) = toLowercase s := by
  simp only [toLowercase, List.map_map]
  exact congrArg String.mk (List.map_congr_left fun c _ => charLower_idem c)

/-- A lexeme built from accepted letters and interior apostrophes is all
BMP, so its UTF-16 length is its character count. -/
theorem utf16Len_eq_length {l : List Char}
    (h : ∀ c ∈ l, is_accepted_char c = true ∨ c = '\'') :
    utf16Len l = l.length := by
  induction l with
  | nil => rfl
  | cons c rest ih =>
    have hc : charUtf16Len c = 1 := by
      rcases h c (by simp) with hc | hc
      · exact charUtf16Len_accepted hc
      · subst hc; exact charUtf16Len_quote
    simp only [utf16Len, List.map_cons, List.sum_cons, List.length_cons] at *
    rw [hc, ih (fun d hd => h d (by simp [hd]))]
    omega

/-! ## Splitting lemmas for the recognizer variant -/

theorem dropWhile_head_mem {α : Type} (p : α → Bool) (l : List α) :
    ∀ u after, l.dropWhile p = u :: after → u ∈ l ∧ p u = false := by
  induction l with
  | nil =>
    intro u after h
    simp [List.dropWhile] at h
  | cons a tail ih =>
    intro u after h
    rw [List.dropWhile_cons] at h
    by_cases hp : p a = true
    · rw [if_pos hp] at h
      rcases ih u after h with ⟨h1, h2⟩
      exact ⟨List.mem_cons_of_mem a h1, h2⟩
    · rw [if_neg hp] at h
      rcases List.cons_eq_cons.mp h with ⟨h1, _⟩
      subst h1
      exact ⟨List.mem_cons_self a tail, Bool.eq_false_iff.mpr hp⟩

theorem splitAux_ne_nil (s : List Char) :
    ∀ current, current.isEmpty = false → splitAux s current ≠ [] := by
  induction s with
  | nil =>
    intro current h
    simp [splitAux, h]
  | cons c rest ih =>
    intro current h
    by_cases hc : (isUppercase c && !current.isEmpty) = true
    · simp [splitAux, hc]
    · simp only [splitAux, hc, Bool.false_eq_true, if_false]
      exact ih _ (by simp)

theorem splitAux_two_le (s : List Char) :
    ∀ current, current.isEmpty = false → (∃ u ∈ s, isUppercase u = true) →
      2 ≤ (splitAux s current).length := by
  induction s with
  | nil =>
    rintro current _ ⟨u, hu, _⟩
    simp at hu
  | cons c rest ih =>
    rintro current h ⟨u, hu, hup⟩
    by_cases hc : (isUppercase c && !current.isEmpty) = true
    · have hne := splitAux_ne_nil rest ['c'] rfl
      simp only [splitAux, hc, if_true, List.length_cons]
      have hpos := List.length_pos.mpr (splitAux_ne_nil rest [c] rfl)
      omega
    · have hcf : isUppercase c = false := by
        cases hcc : isUppercase c
        · rfl
        · exact absurd (by rw [hcc, h]; rfl) hc
      have hu' : u ∈ rest := by
        rcases List.mem_cons.mp hu with h1 | h1
        · rw [h1, hcf] at hup
          cases hup
        · exact h1
      simp only [splitAux, hc, Bool.false_eq_true, if_false]
      exact ih _ (by simp) ⟨u, hu', hup⟩

theorem buildTokensInc_length (p q : Pos) (ls : List (List Char)) :
    ∀ ctr, (buildTokensInc p q ctr ls).length = ls.length := by
  induction ls with
  | nil => intro ctr; rfl
  | cons a tail ih =>
    intro ctr
    simp [buildTokensInc, ih]

/-! ## Expander lemmas for unrecognized casings -/

theorem parseUpperRun_all (l : List Char) :
    (∀ c ∈ l, isUppercase c = true) → parseUpperRun l = (l, []) := by
  induction l with
  | nil => intro _; rfl
  | cons a tail ih =>
    intro h
    cases tail with
    | nil => rfl
    | cons b rest =>
      have ha := h a (by simp)
      have hb := h b (by simp)
      simp only [parseUpperRun, ha, hb, Bool.and_self, if_true]
      rw [ih (fun c hc => h c (List.mem_cons_of_mem a hc))]

theorem nextWord_all_lower (c1 c2 : Char) (rest : List Char)
    (h : ∀ c ∈ c1 :: c2 :: rest, isLowercase c = true) :
    nextWord (c1 :: c2 :: rest) = some (c1 :: c2 :: rest, []) := by
  have h1 : isUppercase c1 = false :=
    isUppercase_false_of_isLowercase (h c1 (by simp))
  have h2 : isUppercase c2 = false :=
    isUppercase_false_of_isLowercase (h c2 (by simp))
  have htail : ∀ c ∈ c2 :: rest, isLowercase c = true :=
    fun c hc => h c (List.mem_cons_of_mem c1 hc)
  simp only [nextWord, h1, h2, parseLowerRun,
    List.takeWhile_eq_self_iff.mpr htail, List.dropWhile_eq_nil_iff.mpr htail]

theorem nextWord_all_upper (c1 c2 : Char) (rest : List Char)
    (h : ∀ c ∈ c1 :: c2 :: rest, isUppercase c = true) :
    nextWord (c1 :: c2 :: rest) = some (c1 :: c2 :: rest, []) := by
  have h1 := h c1 (by simp)
  have h2 := h c2 (by simp)
  simp only [nextWord, h1, h2,
    parseUpperRun_all (c2 :: rest) (fun c hc => h c (List.mem_cons_of_mem c1 hc))]

theorem expandWords_of_nextWord_self {l : List Char}
    (hlen : 2 ≤ l.length) (h : nextWord l = some (l, [])) :
    expandWords l = [l] := by
  obtain ⟨k, hk⟩ : ∃ k, l.length = k + 2 := ⟨l.length - 2, by omega⟩
  rw [expandWords, hk]
  simp only [expandWordsAux, h]
  rfl

theorem parseUpperRun_rest_le (l : List Char) : (parseUpperRun l).2.length ≤ l.length := by
  induction l with
  | nil => exact le_refl _
  | cons a tail ih =>
    cases tail with
    | nil => simp [parseUpperRun]
    | cons b rest =>
      by_cases h : (isUppercase a && isUppercase b) = true
      · simp only [parseUpperRun, h, if_true, List.length_cons]
        simp only [List.length_cons] at ih
        omega
      · simp only [parseUpperRun, h, Bool.false_eq_true, if_false]
        exact le_refl _

/-- Each word the expander iterator yields consumes at least one
character. -/
theorem nextWord_rest_lt {l w rest : List Char} (h : nextWord l = some (w, rest)) :
    rest.length < l.length := by
  match l with
  | [] => exact absurd h (by simp [nextWord])
  | [c] => exact absurd h (by simp [nextWord])
  | c1 :: c2 :: tl =>
    cases hu1 : isUppercase c1 <;> cases hu2 : isUppercase c2 <;>
      simp only [nextWord, hu1, hu2] at h
    · have hr : List.dropWhile isLowercase (c2 :: tl) = rest :=
        congrArg Prod.snd (Option.some_inj.mp h)
      have hlen := (List.dropWhile_sublist isLowercase (l := c2 :: tl)).length_le
      rw [hr] at hlen
      simp only [List.length_cons] at hlen ⊢
      omega
    · exact Option.noConfusion h
    · have hr : List.dropWhile isLowercase (c2 :: tl) = rest :=
        congrArg Prod.snd (Option.some_inj.mp h)
      have hlen := (List.dropWhile_sublist isLowercase (l := c2 :: tl)).length_le
      rw [hr] at hlen
      simp only [List.length_cons] at hlen ⊢
      omega
    · have hr : (parseUpperRun (c2 :: tl)).2 = rest :=
        congrArg Prod.snd (Option.some_inj.mp h)
      have hlen := parseUpperRun_rest_le (c2 :: tl)
      rw [hr] at hlen
      simp only [List.length_cons] at hlen ⊢
      omega

/-- The fuel supplied by `expandWords` is always sufficient: any fuel at
least the lexeme length produces the same word list. -/
theorem expandWordsAux_fuel_free (fuel : Nat) :
    ∀ l : List Char, l.length ≤ fuel →
      expandWordsAux fuel l = expandWordsAux l.length l := by
  induction fuel using Nat.strong_induction_on with
  | _ fuel ih =>
    intro l hle
    cases fuel with
    | zero =>
      have h0 : l.length = 0 := by omega
      rw [h0]
    | succ n =>
      cases hnw : nextWord l with
      | none =>
        cases hl : l.length with
        | zero => simp only [expandWordsAux, hnw]
        | succ m => simp only [expandWordsAux, hnw]
      | some p =>
        obtain ⟨w, rest⟩ := p
        have hlt := nextWord_rest_lt hnw
        cases hl : l.length with
        | zero =>
          rw [hl] at hlt
          exact absurd hlt (by omega)
        | succ m =>
          rw [hl] at hlt
          simp only [expandWordsAux, hnw]
          have h1 := ih n (by omega) rest (by omega)
          have h2 := ih m (by omega) rest (by omega)
          rw [h1, h2]

/-- `Pos::set_col` at the position's own column is the identity. -/
theorem set_col_self (p : Pos) : p.set_col p.col = p := rfl

theorem set_col_set_col (p : Pos) (a b : Nat) : (p.set_col a).set_col b = p.set_col b := rfl

theorem expand_of_expandWords_self {t : Token} (h : expandWords t.lexeme = [t.lexeme]) :
    Token.expand t = [⟨t.start, t.endPos.set_col (t.start.col + byteLen t.lexeme), t.lexeme⟩] := by
  rw [Token.expand, h, buildTokens, buildTokens, set_col_self]

/-! ## Lexer span invariants -/

/-- Invariants of the accumulation loop `lexRun`: the recorded end stays on
the entry line; the column advance covers every appended lexeme character
(with at most one unit of slack for a tentatively-held apostrophe); the
lexeme only grows and consists of accepted letters and apostrophes; the
remaining text is a suffix of the input; and when the input contains no
apostrophe the column advance equals the lexeme growth exactly. -/
theorem lexRun_spec (text : List Char) :
    ∀ col line offset lexeme mq,
      (∀ c ∈ lexeme, is_accepted_char c = true ∨ c = '\'') →
      (mq = none ∨ mq = some '\'') →
      (lexRun text col line offset lexeme mq).2.1.line = line ∧
      col + (lexRun text col line offset lexeme mq).1.length ≤
        (lexRun text col line offset lexeme mq).2.1.col + lexeme.length + mqSlack mq ∧
      lexeme.length ≤ (lexRun text col line offset lexeme mq).1.length ∧
      (∀ c ∈ (lexRun text col line offset lexeme mq).1,
        is_accepted_char c = true ∨ c = '\'') ∧
      (lexRun text col line offset lexeme mq).2.2.text.length +
          (lexRun text col line offset lexeme mq).1.length ≤
        text.length + lexeme.length + mqSlack mq ∧
      (lexRun text col line offset lexeme mq).2.2.text.IsSuffix text ∧
      ('\'' ∉ text → mq = none →
        (lexRun text col line offset lexeme mq).2.1.col + lexeme.length =
            col + (lexRun text col line offset lexeme mq).1.length ∧
        '\'' ∉ (lexRun text col line offset lexeme mq).2.2.text) := by
  induction text with
  | nil =>
    intro col line offset lexeme mq hlex _
    dsimp only [lexRun]
    refine ⟨rfl, by omega, le_refl _, hlex, ?_, List.nil_suffix,
      fun _ _ => ⟨rfl, by simp⟩⟩
    simp only [List.length_nil]
    omega
  | cons c rest ih =>
    intro col line offset lexeme mq hlex hmq
    by_cases hacc : is_accepted_char c = true
    · have hnl : c ≠ '\n' := accepted_ne_newline hacc
      have hadv : lexAdvance c col line = (col + 1, line) := by
        simp [lexAdvance, hnl, charUtf16Len_accepted hacc]
      rcases hmq with rfl | rfl
      · have hstep : lexRun (c :: rest) col line offset lexeme none =
            lexRun rest (col + 1) line (offset + 1) (lexeme ++ [c]) none := by
          simp [lexRun, hacc, hadv]
        have hlex' : ∀ d ∈ lexeme ++ [c], is_accepted_char d = true ∨ d = '\'' := by
          intro d hd
          rcases List.mem_append.mp hd with hd | hd
          · exact hlex d hd
          · rw [List.mem_singleton.mp hd]
            exact Or.inl hacc
        have aa := ih (col + 1) line (offset + 1) (lexeme ++ [c]) none hlex' (Or.inl rfl)
        simp only [List.length_append, List.length_singleton, mqSlack, Nat.add_zero] at aa
        obtain ⟨a1, a2, a3, a4, a5, a6, a7⟩ := aa
        rw [hstep]
        dsimp only [mqSlack]
        refine ⟨a1, by omega, by omega, a4, ?_,
          a6.trans (List.suffix_cons c rest), ?_⟩
        · simp only [List.length_cons]
          omega
        · intro hq _
          have hq' : '\'' ∉ rest := fun hx => hq (List.mem_cons_of_mem c hx)
          obtain ⟨e1, e2⟩ := a7 hq' trivial
          exact ⟨by omega, e2⟩
      · have hstep : lexRun (c :: rest) col line offset lexeme (some '\'') =
            lexRun rest (col + 1) line (offset + 1) (lexeme ++ ['\''] ++ [c]) none := by
          simp [lexRun, hacc, hadv]
        have hlex' : ∀ d ∈ lexeme ++ ['\''] ++ [c],
            is_accepted_char d = true ∨ d = '\'' := by
          intro d hd
          rcases List.mem_append.mp hd with hd | hd
          · rcases List.mem_append.mp hd with hd | hd
            · exact hlex d hd
            · exact Or.inr (List.mem_singleton.mp hd)
          · rw [List.mem_singleton.mp hd]
            exact Or.inl hacc
        have aa := ih (col + 1) line (offset + 1) (lexeme ++ ['\''] ++ [c]) none hlex' (Or.inl rfl)
        simp only [List.length_append, List.length_singleton, mqSlack, Nat.add_zero] at aa
        obtain ⟨a1, a2, a3, a4, a5, a6, a7⟩ := aa
        rw [hstep]
        dsimp only [mqSlack]
        refine ⟨a1, by omega, by omega, a4, ?_,
          a6.trans (List.suffix_cons c rest), ?_⟩
        · simp only [List.length_cons]
          omega
        · intro _ hx
          exact absurd hx (by simp)
    · by_cases hquote : c = '\''
      · subst hquote
        have hadv : lexAdvance '\'' col line = (col + 1, line) := by
          simp [lexAdvance, charUtf16Len_quote]
        by_cases hemp : lexeme.isEmpty = true
        · have hnil : lexeme = [] := List.isEmpty_iff.mp hemp
          subst hnil
          have hstep : lexRun ('\'' :: rest) col line offset [] mq =
              ([], ⟨line, col⟩, ⟨rest, col + 1, line, offset + 1⟩) := by
            simp [lexRun, hacc, hadv]
          rw [hstep]
          refine ⟨rfl, by simp only [List.length_nil]; omega, le_refl _, by simp,
            ?_, List.suffix_cons '\'' rest, ?_⟩
          · simp only [List.length_cons, List.length_nil]
            omega
          · intro hq _
            exact absurd (List.mem_cons_self '\'' rest) hq
        · have hemp' : lexeme.isEmpty = false := Bool.eq_false_iff.mpr hemp
          have hstep : lexRun ('\'' :: rest) col line offset lexeme mq =
              lexRun rest (col + 1) line (offset + 1) lexeme (some '\'') := by
            simp [lexRun, hacc, hadv, hemp']
          obtain ⟨a1, a2, a3, a4, a5, a6, a7⟩ :=
            ih (col + 1) line (offset + 1) lexeme (some '\'') hlex (Or.inr rfl)
          rw [hstep]
          dsimp only [mqSlack] at a2 a5
          refine ⟨a1, by omega, a3, a4, ?_,
            a6.trans (List.suffix_cons '\'' rest), ?_⟩
          · simp only [List.length_cons]
            omega
          · intro hq _
            exact absurd (List.mem_cons_self '\'' rest) hq
      · have hstep : lexRun (c :: rest) col line offset lexeme mq =
            (lexeme, ⟨line, col⟩,
              ⟨rest, (lexAdvance c col line).1, (lexAdvance c col line).2,
                offset + 1⟩) := by
          simp [lexRun, hacc, hquote]
        rw [hstep]
        refine ⟨rfl, ?_, le_refl _, hlex, ?_,
          List.suffix_cons c rest, ?_⟩
        · exact (by omega : col + lexeme.length ≤ col + lexeme.length + mqSlack mq)
        · exact (by simp only [List.length_cons]; omega :
            rest.length + lexeme.length ≤ (c :: rest).length + lexeme.length + mqSlack mq)
        · intro hq _
          exact ⟨rfl, fun hx => hq (List.mem_cons_of_mem c hx)⟩

theorem cursorAdvance_append (l1 : List Char) :
    ∀ (l2 : List Char) (p : Nat × Nat),
      cursorAdvance (l1 ++ l2) p = cursorAdvance l2 (cursorAdvance l1 p) := by
  induction l1 with
  | nil => intro l2 p; rfl
  | cons c rest ih => intro l2 p; exact ih l2 (lexAdvance c p.1 p.2)

/-- The accumulation loop only ever appends to the lexeme. -/
theorem lexRun_lexeme_prefix (text : List Char) :
    ∀ col line offset lexeme mq,
      ∃ tl, (lexRun text col line offset lexeme mq).1 = lexeme ++ tl := by
  induction text with
  | nil =>
    intro col line offset lexeme mq
    exact ⟨[], (List.append_nil lexeme).symm⟩
  | cons c rest ih =>
    intro col line offset lexeme mq
    by_cases hacc : is_accepted_char c = true
    · cases mq with
      | none =>
        have hstep : lexRun (c :: rest) col line offset lexeme none =
            lexRun rest (lexAdvance c col line).1 (lexAdvance c col line).2
              (offset + 1) (lexeme ++ [c]) none := by
          simp [lexRun, hacc]
        obtain ⟨tl, htl⟩ :=
          ih (lexAdvance c col line).1 (lexAdvance c col line).2 (offset + 1)
            (lexeme ++ [c]) none
        exact ⟨[c] ++ tl, by rw [hstep, htl, List.append_assoc]⟩
      | some q =>
        have hstep : lexRun (c :: rest) col line offset lexeme (some q) =
            lexRun rest (lexAdvance c col line).1 (lexAdvance c col line).2
              (offset + 1) (lexeme ++ [q] ++ [c]) none := by
          simp [lexRun, hacc]
        obtain ⟨tl, htl⟩ :=
          ih (lexAdvance c col line).1 (lexAdvance c col line).2 (offset + 1)
            (lexeme ++ [q] ++ [c]) none
        exact ⟨[q] ++ [c] ++ tl, by
          rw [hstep, htl, List.append_assoc, List.append_assoc, List.append_assoc]⟩
    · by_cases hquote : c = '\''
      · subst hquote
        by_cases hemp : lexeme.isEmpty = true
        · have hnil : lexeme = [] := List.isEmpty_iff.mp hemp
          subst hnil
          exact ⟨[], by simp [lexRun, hacc]⟩
        · have hemp' : lexeme.isEmpty = false := Bool.eq_false_iff.mpr hemp
          have hstep : lexRun ('\'' :: rest) col line offset lexeme mq =
              lexRun rest (lexAdvance '\'' col line).1 (lexAdvance '\'' col line).2
                (offset + 1) lexeme (some '\'') := by
            simp [lexRun, hacc, hemp']
          obtain ⟨tl, htl⟩ :=
            ih (lexAdvance '\'' col line).1 (lexAdvance '\'' col line).2 (offset + 1)
              lexeme (some '\'')
          exact ⟨tl, by rw [hstep, htl]⟩
      · exact ⟨[], by simp [lexRun, hacc, hquote]⟩

/-- After the loop, the remaining text is a drop of the input and the
cursor is the fold of the advances over the consumed prefix. -/
theorem lexRun_state (text : List Char) :
    ∀ col line offset lexeme mq,
      ∃ m, (lexRun text col line offset lexeme mq).2.2.text = text.drop m ∧
        ((lexRun text col line offset lexeme mq).2.2.col,
          (lexRun text col line offset lexeme mq).2.2.line) =
          cursorAdvance (text.take m) (col, line) := by
  induction text with
  | nil =>
    intro col line offset lexeme mq
    exact ⟨0, rfl, rfl⟩
  | cons c rest ih =>
    intro col line offset lexeme mq
    by_cases hacc : is_accepted_char c = true
    · cases mq with
      | none =>
        have hstep : lexRun (c :: rest) col line offset lexeme none =
            lexRun rest (lexAdvance c col line).1 (lexAdvance c col line).2
              (offset + 1) (lexeme ++ [c]) none := by
          simp [lexRun, hacc]
        obtain ⟨m, hm1, hm2⟩ :=
          ih (lexAdvance c col line).1 (lexAdvance c col line).2 (offset + 1)
            (lexeme ++ [c]) none
        refine ⟨m + 1, ?_, ?_⟩
        · rw [hstep]
          exact hm1
        · rw [hstep]
          exact hm2
      | some q =>
        have hstep : lexRun (c :: rest) col line offset lexeme (some q) =
            lexRun rest (lexAdvance c col line).1 (lexAdvance c col line).2
              (offset + 1) (lexeme ++ [q] ++ [c]) none := by
          simp [lexRun, hacc]
        obtain ⟨m, hm1, hm2⟩ :=
          ih (lexAdvance c col line).1 (lexAdvance c col line).2 (offset + 1)
            (lexeme ++ [q] ++ [c]) none
        refine ⟨m + 1, ?_, ?_⟩
        · rw [hstep]
          exact hm1
        · rw [hstep]
          exact hm2
    · by_cases hquote : c = '\''
      · subst hquote
        by_cases hemp : lexeme.isEmpty = true
        · have hnil : lexeme = [] := List.isEmpty_iff.mp hemp
          subst hnil
          have hstep : lexRun ('\'' :: rest) col line offset [] mq =
              ([], ⟨line, col⟩,
                ⟨rest, (lexAdvance '\'' col line).1, (lexAdvance '\'' col line).2,
                  offset + 1⟩) := by
            simp [lexRun, hacc]
          refine ⟨1, ?_, ?_⟩
          · rw [hstep]
            rfl
          · rw [hstep]
            rfl
        · have hemp' : lexeme.isEmpty = false := Bool.eq_false_iff.mpr hemp
          have hstep : lexRun ('\'' :: rest) col line offset lexeme mq =
              lexRun rest (lexAdvance '\'' col line).1 (lexAdvance '\'' col line).2
                (offset + 1) lexeme (some '\'') := by
            simp [lexRun, hacc, hemp']
          obtain ⟨m, hm1, hm2⟩ :=
            ih (lexAdvance '\'' col line).1 (lexAdvance '\'' col line).2 (offset + 1)
              lexeme (some '\'')
          refine ⟨m + 1, ?_, ?_⟩
          · rw [hstep]
            exact hm1
          · rw [hstep]
            exact hm2
      · have hstep : lexRun (c :: rest) col line offset lexeme mq =
            (lexeme, ⟨line, col⟩,
              ⟨rest, (lexAdvance c col line).1, (lexAdvance c col line).2,
                offset + 1⟩) := by
          simp [lexRun, hacc, hquote]
        refine ⟨1, ?_, ?_⟩
        · rw [hstep]
          rfl
        · rw [hstep]
          rfl

/-- Span facts for one emitted token: it stays on one line, its column
span covers at least its character count, its lexeme is made of accepted
letters and apostrophes and is non-empty, the tokenizer consumed at least
one character, and on apostrophe-free input the span is exact. -/
theorem nextToken_spec (text : List Char) :
    ∀ col line offset t s, nextToken text col line offset = some (t, s) →
      t.endPos.line = t.start.line ∧
      t.start.col + t.lexeme.length ≤ t.endPos.col ∧
      (∀ c ∈ t.lexeme, is_accepted_char c = true ∨ c = '\'') ∧
      t.lexeme ≠ [] ∧
      s.text.length < text.length ∧
      s.text.IsSuffix text ∧
      ('\'' ∉ text → t.endPos.col = t.start.col + t.lexeme.length ∧ '\'' ∉ s.text) := by
  induction text with
  | nil =>
    intro col line offset t s h
    exact absurd h (by simp [nextToken])
  | cons c rest ih =>
    intro col line offset t s h
    by_cases hacc : is_accepted_char c = true
    · have hnl := accepted_ne_newline hacc
      have hadv : lexAdvance c col line = (col + 1, line) := by
        simp [lexAdvance, hnl, charUtf16Len_accepted hacc]
      have hstep : nextToken (c :: rest) col line offset =
          some (⟨⟨line, col⟩, (lexRun rest (col + 1) line (offset + 1) [c] none).2.1,
              (lexRun rest (col + 1) line (offset + 1) [c] none).1⟩,
            (lexRun rest (col + 1) line (offset + 1) [c] none).2.2) := by
        simp [nextToken, hacc, hadv]
      rw [hstep] at h
      injection h with h1
      injection h1 with ht hs
      subst ht
      subst hs
      have aa := lexRun_spec rest (col + 1) line (offset + 1) [c] none
        (by intro d hd
            rw [List.mem_singleton.mp hd]
            exact Or.inl hacc)
        (Or.inl rfl)
      simp only [List.length_singleton, mqSlack, Nat.add_zero] at aa
      obtain ⟨a1, a2, a3, a4, a5, a6, a7⟩ := aa
      refine ⟨a1, ?_, a4, ?_, ?_, a6.trans (List.suffix_cons c rest), ?_⟩
      · exact (by omega :
          col + (lexRun rest (col + 1) line (offset + 1) [c] none).1.length ≤
            (lexRun rest (col + 1) line (offset + 1) [c] none).2.1.col)
      · exact (List.length_pos.mp (by omega) :
          (lexRun rest (col + 1) line (offset + 1) [c] none).1 ≠ [])
      · exact (by simp only [List.length_cons]; omega :
          (lexRun rest (col + 1) line (offset + 1) [c] none).2.2.text.length <
            (c :: rest).length)
      · intro hq
        have hq' : '\'' ∉ rest := fun hx => hq (List.mem_cons_of_mem c hx)
        obtain ⟨e1, e2⟩ := a7 hq' trivial
        exact ⟨(by omega :
          (lexRun rest (col + 1) line (offset + 1) [c] none).2.1.col =
            col + (lexRun rest (col + 1) line (offset + 1) [c] none).1.length), e2⟩
    · have hstep : nextToken (c :: rest) col line offset =
          nextToken rest (lexAdvance c col line).1 (lexAdvance c col line).2 (offset + 1) := by
        simp [nextToken, hacc]
      rw [hstep] at h
      obtain ⟨b1, b2, b3, b4, b5, b6, b7⟩ := ih _ _ _ t s h
      refine ⟨b1, b2, b3, b4, ?_, b6.trans (List.suffix_cons c rest), ?_⟩
      · simp only [List.length_cons]
        omega
      · intro hq
        exact b7 (fun hx => hq (List.mem_cons_of_mem c hx))

/-- Start-position provenance for one emitted token: its start is the
cursor reached after consuming some input prefix, the next input character
is accepted, and it is the token's first lexeme character; the state after
the token is likewise the cursor after a consumed prefix. -/
theorem nextToken_start_spec (text : List Char) :
    ∀ col line offset t s, nextToken text col line offset = some (t, s) →
      (∃ j c2 rest2, text.drop j = c2 :: rest2 ∧ is_accepted_char c2 = true ∧
        t.lexeme.head? = some c2 ∧
        (t.start.col, t.start.line) = cursorAdvance (text.take j) (col, line)) ∧
      ∃ m, s.text = text.drop m ∧
        (s.col, s.line) = cursorAdvance (text.take m) (col, line) := by
  induction text with
  | nil =>
    intro col line offset t s h
    exact absurd h (by simp [nextToken])
  | cons c rest ih =>
    intro col line offset t s h
    by_cases hacc : is_accepted_char c = true
    · have hstep : nextToken (c :: rest) col line offset =
          some (⟨⟨line, col⟩,
              (lexRun rest (lexAdvance c col line).1 (lexAdvance c col line).2
                (offset + 1) [c] none).2.1,
              (lexRun rest (lexAdvance c col line).1 (lexAdvance c col line).2
                (offset + 1) [c] none).1⟩,
            (lexRun rest (lexAdvance c col line).1 (lexAdvance c col line).2
              (offset + 1) [c] none).2.2) := by
        simp [nextToken, hacc]
      rw [hstep] at h
      injection h with h1
      injection h1 with ht hs
      subst ht
      subst hs
      constructor
      · refine ⟨0, c, rest, rfl, hacc, ?_, rfl⟩
        obtain ⟨tl, htl⟩ :=
          lexRun_lexeme_prefix rest (lexAdvance c col line).1
            (lexAdvance c col line).2 (offset + 1) [c] none
        show (lexRun rest (lexAdvance c col line).1 (lexAdvance c col line).2
            (offset + 1) [c] none).1.head? = some c
        rw [htl]
        rfl
      · obtain ⟨m, hm1, hm2⟩ :=
          lexRun_state rest (lexAdvance c col line).1 (lexAdvance c col line).2
            (offset + 1) [c] none
        exact ⟨m + 1, hm1, hm2⟩
    · have hstep : nextToken (c :: rest) col line offset =
          nextToken rest (lexAdvance c col line).1 (lexAdvance c col line).2
            (offset + 1) := by
        simp [nextToken, hacc]
      rw [hstep] at h
      obtain ⟨⟨j, c2, rest2, hj, hc2, hhead, hstart⟩, m, hm1, hm2⟩ := ih _ _ _ t s h
      exact ⟨⟨j + 1, c2, rest2, hj, hc2, hhead, hstart⟩, m + 1, hm1, hm2⟩

/-- Span facts for every token in the emitted stream. -/
theorem lexTokensAux_spec (fuel : Nat) :
    ∀ text col line offset t, t ∈ lexTokensAux fuel text col line offset →
      t.endPos.line = t.start.line ∧
      t.start.col + t.lexeme.length ≤ t.endPos.col ∧
      (∀ c ∈ t.lexeme, is_accepted_char c = true ∨ c = '\'') ∧
      ('\'' ∉ text → t.endPos.col = t.start.col + t.lexeme.length) := by
  induction fuel with
  | zero =>
    intro text col line offset t ht
    simp [lexTokensAux] at ht
  | succ n ih =>
    intro text col line offset t ht
    cases hnt : nextToken text col line offset with
    | none =>
      simp only [lexTokensAux, hnt] at ht
      exact absurd ht (List.not_mem_nil t)
    | some p =>
      obtain ⟨t0, s⟩ := p
      simp only [lexTokensAux, hnt] at ht
      obtain ⟨n1, n2, n3, _, _, _, n7⟩ := nextToken_spec text col line offset t0 s hnt
      rcases List.mem_cons.mp ht with rfl | hmem
      · exact ⟨n1, n2, n3, fun hq => (n7 hq).1⟩
      · obtain ⟨m1, m2, m3, m4⟩ := ih s.text s.col s.line s.offset t hmem
        exact ⟨m1, m2, m3, fun hq => m4 ((n7 hq).2)⟩

/-- Start-position provenance for every token in the stream, relative to
the original input: each token's start is the cursor reached immediately
before its first character, which is an accepted letter. -/
theorem lexTokensAux_start_spec (fuel : Nat) :
    ∀ text col line offset t, t ∈ lexTokensAux fuel text col line offset →
      ∃ j c2 rest2, text.drop j = c2 :: rest2 ∧ is_accepted_char c2 = true ∧
        t.lexeme.head? = some c2 ∧
        (t.start.col, t.start.line) = cursorAdvance (text.take j) (col, line) := by
  induction fuel with
  | zero =>
    intro text col line offset t ht
    simp [lexTokensAux] at ht
  | succ n ih =>
    intro text col line offset t ht
    cases hnt : nextToken text col line offset with
    | none =>
      simp only [lexTokensAux, hnt] at ht
      exact absurd ht (List.not_mem_nil t)
    | some p =>
      obtain ⟨t0, s⟩ := p
      simp only [lexTokensAux, hnt] at ht
      obtain ⟨⟨j0, c2, rest2, hj, hc2, hhead, hstart⟩, m, hm1, hm2⟩ :=
        nextToken_start_spec text col line offset t0 s hnt
      rcases List.mem_cons.mp ht with rfl | hmem
      · exact ⟨j0, c2, rest2, hj, hc2, hhead, hstart⟩
      · obtain ⟨j, d2, r2, hj2, hd2, hhead2, hstart2⟩ :=
          ih s.text s.col s.line s.offset t hmem
        refine ⟨m + j, d2, r2, ?_, hd2, hhead2, ?_⟩
        · rw [← List.drop_drop, ← hm1]
          exact hj2
        · rw [List.take_add, cursorAdvance_append, ← hm1, ← hm2]
          exact hstart2

/-- The fuel supplied by `lexTokens` is always sufficient: any fuel at
least the remaining text length produces the same token stream, since each
emitted token consumes at least one character. -/
theorem lexTokensAux_fuel_free (fuel : Nat) :
    ∀ text col line offset, text.length ≤ fuel →
      lexTokensAux fuel text col line offset =
        lexTokensAux text.length text col line offset := by
  induction fuel using Nat.strong_induction_on with
  | _ fuel ih =>
    intro text col line offset hle
    cases fuel with
    | zero =>
      have h0 : text.length = 0 := by omega
      rw [h0]
    | succ n =>
      cases hnt : nextToken text col line offset with
      | none =>
        cases hl : text.length with
        | zero => simp only [lexTokensAux, hnt]
        | succ m => simp only [lexTokensAux, hnt]
      | some p =>
        obtain ⟨t, s⟩ := p
        obtain ⟨-, -, -, -, hlt, -, -⟩ := nextToken_spec text col line offset t s hnt
        cases hl : text.length with
        | zero =>
          rw [hl] at hlt
          exact absurd hlt (by omega)
        | succ m =>
          rw [hl] at hlt
          simp only [lexTokensAux, hnt]
          have h1 := ih n (by omega) s.text s.col s.line s.offset (by omega)
          have h2 := ih m (by omega) s.text s.col s.line s.offset (by omega)
          rw [h1, h2]

/-! ## Source test vectors

The repository's own unit tests, replayed against the embedding. -/

/-- The lexer tests of `src/lexer.rs`: snake-case and kebab-case inputs,
an interior apostrophe, and a tab counted as one UTF-16 unit. -/
theorem lexer_test_vectors :
    ((lexTokens "fn fizz_buzz(n: int){}".data).map fun t => t.lexeme) =
      ["fn".data, "fizz".data, "buzz".data, "n".data, "int".data] ∧
    ((lexTokens "fn-fizz-buzz(n: int){}".data).map fun t => t.lexeme) =
      ["fn".data, "fizz".data, "buzz".data, "n".data, "int".data] ∧
    ((lexTokens "return \"what's up dude\"".data).map fun t => t.lexeme) =
      ["return".data, "what's".data, "up".data, "dude".data] ∧
    ((lexTokens "\tHellooo".data).map fun t => t.start.col) = [1] := by
  refine ⟨by decide, by decide, by decide, by decide⟩

/-- The expander tests of `src/expander.rs` not already covered by the
C3 scenarios. -/
theorem expander_test_vectors :
    expandWords "ABBRCase".data = ["ABBR".data, "Case".data] ∧
    expandWords "DataJSONGood".data = ["Data".data, "JSON".data, "Good".data] := by
  refine ⟨by decide, by decide⟩

/-! ## Claims -/

/-- **C1.** The claim states that for every token the Word Expander splits,
the first sub-token's start equals the original start, consecutive
sub-tokens are contiguous, and the last sub-token's end equals the
original end.  The code computes each sub-token's width as the UTF-8
**byte** length of its lexeme (`lexeme.len()`), while token columns are
UTF-16 code units, so the last sub-token's end overshoots the original end
for any split lexeme containing a non-ASCII accepted letter.  Witnessed on
the token the lexer itself emits for the input `"åÄa"` (a camel-case
lexeme of three 1-unit columns but 5 bytes): the first sub-token keeps the
start and the sub-tokens are contiguous, yet the last sub-token ends at
column 5 instead of the original end column 3. -/
theorem c1_expander_span_bug :
    lexTokens "åÄa".data = [⟨⟨0, 0⟩, ⟨0, 3⟩, ['å', 'Ä', 'a']⟩] ∧
    expandOpt ⟨⟨0, 0⟩, ⟨0, 3⟩, ['å', 'Ä', 'a']⟩ =
      some [⟨⟨0, 0⟩, ⟨0, 2⟩, ['å']⟩, ⟨⟨0, 2⟩, ⟨0, 5⟩, ['Ä', 'a']⟩] ∧
    utf16Len ['å', 'Ä', 'a'] = 3 ∧ byteLen ['å', 'Ä', 'a'] = 5 := by
  refine ⟨by decide, by decide, by decide, by decide⟩

/-- **C2 (counterexample).** The claim states that a check request on an
*uninitialized* bridge returns `true` and a suggest request the empty
list, surfacing no error.  In the code both requests `unwrap()` the
`Option<Sender>` stored behind the `RwLock`, so an uninitialized bridge
panics (modelled by `none`) instead of replying. -/
theorem c2_uninitialized_panics :
    spell_check WorkerChannel.uninitialized "hello" = none ∧
    suggest WorkerChannel.uninitialized "hello" = none ∧
    spell_check WorkerChannel.uninitialized "hello" ≠ some true ∧
    suggest WorkerChannel.uninitialized "hello" ≠ some [] := by
  refine ⟨rfl, rfl, by decide, by decide⟩

/-- **C2 (amended).** When the worker context has terminated (the send
fails and the reply channel is dropped), `tx.recv()` fails and the
`unwrap_or` fallbacks apply: a check request treats the word as known
(`true`) and a suggest request returns the empty list, with no error
surfaced.  When the bridge has not yet been initialized, the request
panics on `unwrap()` instead of failing open. -/
theorem c2_terminated_fails_open (word : String) :
    spell_check WorkerChannel.terminated word = some true ∧
    suggest WorkerChannel.terminated word = some [] :=
  ⟨rfl, rfl⟩

/-- **C3.** The Word Expander's splitting algorithm (`Expander` of
`src/expander.rs`, pinned by its own unit test) splits `"DataJSON"` into
exactly `"Data"` and `"JSON"`, and `"HelloWorld"` into exactly `"Hello"`
and `"World"`. -/
theorem c3_expander_scenarios :
    expandWords "DataJSON".data = ["Data".data, "JSON".data] ∧
    expandWords "HelloWorld".data = ["Hello".data, "World".data] := by
  refine ⟨by decide, by decide⟩

/-- **C10.** The local accepted-word dictionary is case-insensitive:
`insert` stores the lowercased word and `contains` looks up the lowercased
query, so any word whose lowercasing matches an inserted word's
lowercasing is contained; `contains` is invariant under lowercasing the
query, and `insert` behaves exactly as inserting the lowercased word. -/
theorem c10_local_dictionary_case_insensitive (d : LocalDictionary) (w v : String) :
    (toLowercase v = toLowercase w → (d.insert w).contains v = true) ∧
    d.contains v = d.contains (toLowercase v) ∧
    d.insert w = d.insert (toLowercase w) := by
  refine ⟨fun h => ?_, ?_, ?_⟩
  · simp [LocalDictionary.contains, LocalDictionary.insert, h]
  · simp [LocalDictionary.contains, toLowercase_idem]
  · simp [LocalDictionary.insert, toLowercase_idem]

/-- Witness for C10 at a concrete dictionary: after inserting `"Hej"`, the
query `"HEJ"` is contained. -/
theorem c10_local_dictionary_case_insensitive_witness :
    (LocalDictionary.insert [] "Hej").contains "HEJ" = true :=
  (c10_local_dictionary_case_insensitive [] "Hej" "HEJ").1 (by decide)

/-- **C5 (counterexample).** The claim says a token's end is the position
immediately after its last accepted character, *including* when a
tentatively-held trailing apostrophe is discarded.  On input `"ab'"` the
apostrophe is consumed and then discarded, but the end recorded at the
final loop top already lies past it: the emitted token is `"ab"` with end
column 3, while one past the last accepted character (`b`) is column
0 + utf16Len "ab" = 2. -/
theorem c5_trailing_apostrophe_counterexample :
    lexTokens "ab'".data = [⟨⟨0, 0⟩, ⟨0, 3⟩, ['a', 'b']⟩] ∧
    utf16Len ['a', 'b'] = 2 ∧ (3 : Nat) ≠ 0 + utf16Len ['a', 'b'] := by
  refine ⟨by decide, by decide, by decide⟩

/-- **C5 (amended).** For every token the lexer emits: its start is the
cursor position reached immediately before its first character, which is
an accepted letter and heads the lexeme; start and end lie on the same
line; and the end column is at least the start column plus the lexeme's
UTF-16 length — with equality (end immediately after the last accepted
character, one past its last code unit) whenever the input contains no
apostrophe.  (A consumed-and-discarded apostrophe — trailing, or
overwritten by a later apostrophe — advances the recorded end past the
last accepted character, so only the inequality holds in general.) -/
theorem c5_token_span_amended (input : List Char) (t : Token)
    (ht : t ∈ lexTokens input) :
    (∃ j c rest2, input.drop j = c :: rest2 ∧ is_accepted_char c = true ∧
      t.lexeme.head? = some c ∧
      (t.start.col, t.start.line) = cursorAdvance (input.take j) (0, 0)) ∧
    t.endPos.line = t.start.line ∧
    t.start.col + utf16Len t.lexeme ≤ t.endPos.col ∧
    ('\'' ∉ input → t.endPos.col = t.start.col + utf16Len t.lexeme) := by
  obtain ⟨h1, h2, hcs, h4⟩ :=
    lexTokensAux_spec input.length input 0 0 0 t ht
  rw [utf16Len_eq_length hcs]
  exact ⟨lexTokensAux_start_spec input.length input 0 0 0 t ht, h1, h2, h4⟩

/-- Witness for C5 on the apostrophe-free input `"ab cd"`: its first token
`"ab"` starts at the cursor before its first accepted character and spans
columns 0 to 2, exactly one past its last code unit. -/
theorem c5_token_span_amended_witness :
    '\'' ∉ "ab cd".data ∧
    (⟨⟨0, 0⟩, ⟨0, 2⟩, ['a', 'b']⟩ : Token) ∈ lexTokens "ab cd".data ∧
    (∃ j c rest2, "ab cd".data.drop j = c :: rest2 ∧ is_accepted_char c = true ∧
      (['a', 'b'] : List Char).head? = some c ∧
      ((0 : Nat), (0 : Nat)) = cursorAdvance ("ab cd".data.take j) (0, 0)) ∧
    (2 : Nat) = 0 + utf16Len ['a', 'b'] := by
  refine ⟨by decide, by decide, ?_, ?_⟩
  · have h := c5_token_span_amended "ab cd".data ⟨⟨0, 0⟩, ⟨0, 2⟩, ['a', 'b']⟩ (by decide)
    exact h.1
  · have h := c5_token_span_amended "ab cd".data ⟨⟨0, 0⟩, ⟨0, 2⟩, ['a', 'b']⟩ (by decide)
    exact h.2.2.2 (by decide)

/-- **C6 (counterexample).** The claim places a keyword-filter stage (on
the pre-expansion lexeme) in the pipeline.  `Backend::misspelled_tokens`
has no such stage: on the document `"impl"` (a Rust keyword of more than 3
bytes), with a spell checker that knows nothing and an empty accepted set,
the code emits the `impl` token as a finding, while the claimed staged
pipeline would have dropped it at the keyword stage. -/
theorem c6_keyword_stage_counterexample :
    misspelledTokens "impl".data (fun _ => false) (fun _ => false) =
      [⟨⟨0, 0⟩, ⟨0, 4⟩, "impl".data⟩] ∧
    claimedPipeline "impl".data "rust" (fun _ => false) (fun _ => false) = [] := by
  refine ⟨by decide, by decide⟩

/-- **C6 (amended).** The pipeline that produces findings
(`Backend::misspelled_tokens`) applies, in order: lex → drop lexemes of 3
or fewer UTF-8 bytes → expand → re-apply the same length filter → drop
words the Dispatch Bridge reports known → drop words in the accepted set.
It contains no keyword stage, so it coincides with the claimed staged
pipeline exactly when the language's keyword set is empty (any language
identifier other than rust/javascript/ruby).  (The keyword filter on
pre-expansion lexemes exists only in `Pipeline::run` of `src/pipeline.rs`,
which is not part of the running binary's pipeline and has no
post-expansion, bridge, or accepted-set stages.) -/
theorem c6_pipeline_stages_amended (code : List Char) (lang : String)
    (known accepted : List Char → Bool) :
    misspelledTokens code known accepted = amendedPipeline code known accepted ∧
    (from_lang lang = [] →
      misspelledTokens code known accepted = claimedPipeline code lang known accepted) := by
  refine ⟨rfl, fun h => ?_⟩
  unfold misspelledTokens claimedPipeline
  rw [h]
  simp [List.contains]

/-- Witness for C6 at a concrete document and an unknown language (empty
keyword set): the code pipeline and the claimed staged pipeline agree. -/
theorem c6_pipeline_stages_amended_witness :
    misspelledTokens "impl".data (fun _ => false) (fun _ => false) =
      claimedPipeline "impl".data "python" (fun _ => false) (fun _ => false) :=
  (c6_pipeline_stages_amended "impl".data "python" (fun _ => false) (fun _ => false)).2 rfl

/-- **C7.** The lexer's cursor advance: a non-newline character advances
the column by its UTF-16 width (1 for Basic Multilingual Plane code
points, 2 above U+FFFF) and keeps the line; a newline resets the column to
0 and increments the line.  In particular, lexing `"a😀b"` yields the
token `"a"` starting at column 0 and the token `"b"` starting at column 3
(1 for `a` plus 2 for the surrogate-pair emoji). -/
theorem c7_position_tracking :
    (∀ (c : Char) (col line : Nat), c ≠ '\n' →
        lexAdvance c col line = (col + charUtf16Len c, line)) ∧
    (∀ col line : Nat, lexAdvance '\n' col line = (0, line + 1)) ∧
    (∀ c : Char, c.toNat < 0x10000 → charUtf16Len c = 1) ∧
    (∀ c : Char, 0x10000 ≤ c.toNat → charUtf16Len c = 2) ∧
    (lexTokens "a😀b".data).map (fun t => (t.lexeme, t.start)) =
      [(['a'], ⟨0, 0⟩), (['b'], ⟨0, 3⟩)] := by
  refine ⟨?_, ?_, ?_, ?_, by decide⟩
  · intro c col line h
    simp [lexAdvance, h]
  · intro col line
    simp [lexAdvance]
  · intro c h
    simp [charUtf16Len, h]
  · intro c h
    rw [charUtf16Len, if_neg (by omega)]

/-- Witness for C7 at concrete characters: an ASCII letter advances the
column by one unit, a newline resets it, and the non-BMP emoji is two
units wide. -/
theorem c7_position_tracking_witness :
    lexAdvance 'a' 5 7 = (5 + charUtf16Len 'a', 7) ∧ lexAdvance '\n' 5 7 = (0, 8) ∧
    charUtf16Len 'a' = 1 ∧ charUtf16Len (Char.ofNat 0x1F600) = 2 :=
  ⟨c7_position_tracking.1 'a' 5 7 (by decide), c7_position_tracking.2.1 5 7,
   c7_position_tracking.2.2.1 'a' (by decide),
   c7_position_tracking.2.2.2.1 (Char.ofNat 0x1F600) (by decide)⟩

/-- **C9 (counterexample).** The claim says the suggest result contains
only strings longer than 2 *characters*; the code filters on `s.len()`,
which counts UTF-8 **bytes**.  A dictionary suggesting `"éé"` — 2
characters but 4 bytes — passes the code's filter. -/
theorem c9_suggest_counterexample :
    suggestWorker [⟨fun _ => false, fun _ => ["éé"]⟩] "word" = ["éé"] ∧
    ¬ 2 < ("éé" : String).length := by
  refine ⟨by decide, by decide⟩

/-- **C9 (amended).** A check verdict is the logical OR of the
per-dictionary verdicts, and a suggest result is drawn from the union of
all dictionaries' suggestions, contains no duplicates, contains only
strings longer than 2 UTF-8 **bytes** (not characters), and has at most 6
elements. -/
theorem c9_verdict_amended (dicts : List Dict) (word : String) :
    (checkWorker dicts word = true ↔ ∃ d ∈ dicts, d.check word = true) ∧
    (∀ s ∈ suggestWorker dicts word,
        (∃ d ∈ dicts, s ∈ d.suggest word) ∧ 2 < s.utf8ByteSize) ∧
    (suggestWorker dicts word).Nodup ∧
    (suggestWorker dicts word).length ≤ 6 := by
  refine ⟨List.any_eq_true, fun s hs => ?_, ?_, ?_⟩
  · have h1 := List.mem_dedup.mp (List.take_subset 6 _ hs)
    have h2 := List.mem_filter.mp h1
    refine ⟨List.mem_flatMap.mp h2.1, by simpa using h2.2⟩
  · exact (List.nodup_dedup _).sublist (List.take_sublist 6 _)
  · exact List.length_take_le _ _

/-- **C4 (counterexample).** The claim's premise holds for the lexeme
`"AbC"`: the first character `A` is uppercase and the remainder `"bC"`
contains an uppercase (`C`) and a lowercase (`b`) letter.  Yet `is_pascal`
returns `false` — its two `any` calls share one iterator, so the second
scans only what follows the first uppercase of the remainder, which here
is nothing — and `expand` returns `None`, leaving the token unsplit. -/
theorem c4_pascal_counterexample :
    isUppercase 'A' = true ∧
    "bC".data.any isUppercase = true ∧ "bC".data.any isLowercase = true ∧
    is_pascal "AbC".data = false ∧
    expandOpt ⟨⟨0, 0⟩, ⟨0, 3⟩, "AbC".data⟩ = none := by
  refine ⟨by decide, by decide, by decide, by decide, by decide⟩

/-- **C4 (amended).** For every token whose lexeme's first character is
uppercase and whose remaining characters contain an uppercase letter that
is *followed, later among the remaining characters, by a lowercase
letter*, the Word Expander recognizes the token as Pascal-case and splits
it into at least two sub-tokens rather than returning it unsplit.  (The
shared-iterator `any` calls make the recognizer demand a lowercase after
the first uppercase of the remainder, not anywhere in it.) -/
theorem c4_pascal_amended (t : Token) (f u : Char) (rest after : List Char)
    (hlex : t.lexeme = f :: rest)
    (hf : isUppercase f = true)
    (hdrop : rest.dropWhile (fun c => !isUppercase c) = u :: after)
    (hlow : after.any isLowercase = true) :
    is_pascal t.lexeme = true ∧
    expandOpt t = some (expand_pascal t) ∧
    2 ≤ (expand_pascal t).length := by
  have hpas : is_pascal (f :: rest) = true := by
    simp [is_pascal, isLowercase_false_of_isUppercase hf, hdrop, hlow]
  have hcam : is_camel (f :: rest) = false := by
    simp [is_camel, hf]
  refine ⟨by rw [hlex]; exact hpas, ?_, ?_⟩
  · rw [expandOpt, hlex, hcam, hpas]
    simp
  · rw [expand_pascal, buildTokensInc_length, hlex, split_on_uppercase]
    have hstep : splitAux (f :: rest) [] = splitAux rest [f] := by
      simp [splitAux]
    rw [hstep]
    rcases dropWhile_head_mem (fun c => !isUppercase c) rest u after hdrop with ⟨hmem, hpu⟩
    exact splitAux_two_le rest [f] rfl ⟨u, hmem, by simpa using hpu⟩

/-- Witness for C4 at the token `"AbCd"`: first character uppercase, and
the uppercase `C` of the remainder is followed by the lowercase `d`; the
recognizer accepts and the expander splits into at least two sub-tokens. -/
theorem c4_pascal_amended_witness :
    is_pascal "AbCd".data = true ∧
    expandOpt ⟨⟨0, 0⟩, ⟨0, 4⟩, "AbCd".data⟩ =
      some (expand_pascal ⟨⟨0, 0⟩, ⟨0, 4⟩, "AbCd".data⟩) ∧
    2 ≤ (expand_pascal ⟨⟨0, 0⟩, ⟨0, 4⟩, "AbCd".data⟩).length :=
  c4_pascal_amended ⟨⟨0, 0⟩, ⟨0, 4⟩, "AbCd".data⟩ 'A' 'C' "bCd".data "d".data
    rfl (by decide) (by decide) (by decide)

/-- **C8 (counterexample).** The claim says `expand` always returns at
least one token and returns unrecognized tokens (including single-letter
lexemes) as a singleton equal to the input.  The code's word iterator
needs two characters before it classifies anything, so a single-letter
token expands to the *empty* vector; and for an all-lowercase token the
rebuilt singleton recomputes `end` as start plus the lexeme's byte length,
which differs from the input token whenever its `end` column does not have
that form. -/
theorem c8_expand_counterexample :
    Token.expand ⟨⟨0, 0⟩, ⟨0, 1⟩, ['a']⟩ = [] ∧
    Token.expand ⟨⟨0, 0⟩, ⟨0, 9⟩, "hello".data⟩ ≠ [⟨⟨0, 0⟩, ⟨0, 9⟩, "hello".data⟩] := by
  refine ⟨by decide, by decide⟩

/-- **C8 (amended).** A single-letter token expands to the empty vector
(so `expand` does not always return at least one token).  A token whose
lexeme is all-lowercase or all-uppercase with at least two characters
expands to exactly one token carrying the same lexeme and start, with end
column recomputed as start column plus the lexeme's UTF-8 byte length
(hence equal to the input token exactly when its end already has that
form); re-running `expand` on that singleton yields the same singleton
(idempotence). -/
theorem c8_expand_amended (t : Token) :
    (t.lexeme.length = 1 → Token.expand t = []) ∧
    (2 ≤ t.lexeme.length →
      ((∀ c ∈ t.lexeme, isLowercase c = true) ∨ (∀ c ∈ t.lexeme, isUppercase c = true)) →
      ∃ t2, Token.expand t = [t2] ∧ t2.lexeme = t.lexeme ∧ t2.start = t.start ∧
        t2.endPos = t.endPos.set_col (t.start.col + byteLen t.lexeme) ∧
        Token.expand t2 = [t2]) := by
  constructor
  · intro h
    obtain ⟨c, hc⟩ := List.length_eq_one.mp h
    rw [Token.expand, hc]
    rfl
  · intro hlen hcls
    have hword : nextWord t.lexeme = some (t.lexeme, []) := by
      cases hl : t.lexeme with
      | nil => rw [hl] at hlen; simp at hlen
      | cons c1 tl =>
        cases tl with
        | nil => rw [hl] at hlen; simp at hlen
        | cons c2 rest =>
          rw [hl] at hcls
          rcases hcls with hc | hc
          · exact nextWord_all_lower c1 c2 rest hc
          · exact nextWord_all_upper c1 c2 rest hc
    have hwords : expandWords t.lexeme = [t.lexeme] :=
      expandWords_of_nextWord_self hlen hword
    refine ⟨⟨t.start, t.endPos.set_col (t.start.col + byteLen t.lexeme), t.lexeme⟩,
      expand_of_expandWords_self hwords, rfl, rfl, rfl, ?_⟩
    have h2 := expand_of_expandWords_self
      (t := ⟨t.start, t.endPos.set_col (t.start.col + byteLen t.lexeme), t.lexeme⟩) hwords
    rw [h2, set_col_set_col]

/-- Witness for C8 at the all-lowercase token `"hello"` with consistent
span: `expand` returns the singleton with the same lexeme, start, and the
recomputed end, and is idempotent on it. -/
theorem c8_expand_amended_witness :
    ∃ t2, Token.expand ⟨⟨0, 0⟩, ⟨0, 5⟩, "hello".data⟩ = [t2] ∧
      t2.lexeme = "hello".data ∧ t2.start = ⟨0, 0⟩ ∧
      t2.endPos = Pos.set_col ⟨0, 5⟩ (0 + byteLen "hello".data) ∧
      Token.expand t2 = [t2] :=
  (c8_expand_amended ⟨⟨0, 0⟩, ⟨0, 5⟩, "hello".data⟩).2 (by decide) (Or.inl (by decide))

/-- Witness for C9 at a concrete dictionary list: `"hello"` is known
because the single dictionary knows it, and the suggestion `"apple"` is
drawn from the dictionary and is longer than 2 bytes. -/
theorem c9_verdict_amended_witness :
    checkWorker [witnessDict] "hello" = true ∧
    ((∃ d ∈ [witnessDict], "apple" ∈ d.suggest "x") ∧
      2 < ("apple" : String).utf8ByteSize) :=
  ⟨(c9_verdict_amended [witnessDict] "hello").1.mpr
      ⟨witnessDict, by simp, by decide⟩,
   (c9_verdict_amended [witnessDict] "x").2.1 "apple" (by decide)⟩

end Rustproof
